import Mathlib

/-!
Verification development for the nbtee package (a non-blocking tee writer).

The Go source has two parts:

* sink.go : a per-target sink with a bounded buffer channel (s.c), a
  one-shot terminal signal (s.done), a channel of pending flush
  acknowledgements (s.flushers) and a latched error (s.err).  The nil
  buffer travels through the data channel as a control value (gap marker
  and flush marker).
* nbtee.go : the Writer, whose run goroutine serializes cmdAdd, cmdRemove,
  cmdWrite and cmdFlush over a registry of sinks.

The embedding below is shallow and sequential.  Byte buffers are
List Nat, the nil buffer is the value none of Option (List Nat).
Channel receive and send are modelled by list operations; closing a
channel is a Bool flag.  Blocking interactions of the single coordinator
with one sink worker (the flush handshake) are modelled atomically: the
drain goroutine runs to the acknowledgement point in one step.
Goroutine scheduling of the per-sink drain workers relative to the
coordinator commands is kept explicit: a trace is a list of acts, where
an act is either an API command or one iteration of some sink's drain
loop, so theorems over all traces quantify over all such schedules.
-/

namespace Nbtee

/-- Payloads of the data items of a queue, in order; gap markers (the nil
buffer, modelled as none) carry no payload. -/
def dataOf (q : List (Option (List Nat))) : List (List Nat) :=
  q.filterMap id

@[simp] theorem dataOf_nil : dataOf [] = [] := rfl

@[simp] theorem dataOf_cons_none (q : List (Option (List Nat))) :
    dataOf (none :: q) = dataOf q := rfl

@[simp] theorem dataOf_cons_some (d : List Nat) (q : List (Option (List Nat))) :
    dataOf (some d :: q) = d :: dataOf q := rfl

/-!
## Sink-local model (sink.go)

LSink carries the sink fields plus an explicit model of the wrapped
target: script lists the outcome of each successive target Write call
(none means success, some e means the call returns error e), written
records the buffers actually passed to the target's Write method,
hasCloser says whether the target implements io.Closer, writerNil models
the s.Writer = nil double-close guard, closeErr is the error the target's
Close call would return, and closeCount counts actual target Close calls.
-/

structure LSink where
  queue : List (Option (List Nat))
  closed : Bool
  done : Bool
  flushers : Nat
  err : Option Nat
  written : List (List Nat)
  script : List (Option Nat)
  hasCloser : Bool
  writerNil : Bool
  closeErr : Option Nat
  closeCount : Nat
  cap : Nat
deriving DecidableEq, Repr

/-- Model of sink.Write from sink.go: if the sink is terminal, report the
latched error with count 0 and enqueue nothing.  Otherwise, if the
capacity exceeds 1 and the queue is one slot short of capacity, enqueue a
nil gap marker and drop the data; otherwise try a non-blocking enqueue of
the data, which succeeds exactly when the buffered channel has a free
slot.  The call always reports the full length and a nil error when the
sink is not terminal. -/
def sinkWriteL (buf : List Nat) (s : LSink) : LSink × Nat × Option Nat :=
  if s.done = true then (s, 0, s.err)
  else if 1 < s.cap ∧ s.queue.length + 1 = s.cap then
    ({s with queue := s.queue ++ [none]}, buf.length, none)
  else if s.queue.length < s.cap then
    ({s with queue := s.queue ++ [some buf]}, buf.length, none)
  else (s, buf.length, none)

/-- Model of sink.Close from sink.go, entered after the done signal: if
the target implements io.Closer and the s.Writer reference was not yet
cleared, close the target, latch its error only when no error is latched
yet, and clear the reference so a second call cannot close again; the
call returns the latched error. -/
def sinkCloseL (s : LSink) : LSink × Option Nat :=
  if s.hasCloser = true ∧ s.writerNil = false then
    let e := if s.err = none then s.closeErr else s.err
    ({s with err := e, writerNil := true, closeCount := s.closeCount + 1}, e)
  else (s, s.err)

/-- One pass of the drain loop of sink.go over a queue front q (the sink
state s holds the remaining fields; the queue field of s is kept empty
and q is consumed recursively).  A nil item discards everything
immediately available and acknowledges all pending flushers.  A data item
is passed to the target's Write; on error the sink latches the error,
becomes terminal, closes the target via sink.Close and discards the rest.
When the queue is exhausted and closed, the sink becomes terminal. -/
def drainAux : List (Option (List Nat)) → LSink → LSink
  | [], s => if s.closed = true ∧ s.done = false then {s with done := true} else s
  | none :: _, s => drainAux [] {s with flushers := 0}
  | some d :: rest, s =>
    match s.script with
    | some e :: sc =>
      (sinkCloseL {s with written := s.written ++ [d], script := sc,
                          err := some e, done := true}).1
    | none :: sc =>
      drainAux rest {s with written := s.written ++ [d], err := none, script := sc}
    | [] =>
      drainAux rest {s with written := s.written ++ [d], err := none}
termination_by l _ => l.length
decreasing_by
  all_goals simp

/-- Run the drain loop of the sink until it blocks on an empty open
queue, or exits (queue closed, or a target write error). -/
def drainRunL (s : LSink) : LSink :=
  drainAux s.queue {s with queue := []}

/-- Model of sink.Flush from sink.go: if the sink is terminal, return at
once; otherwise register a flush acknowledgement channel, send a nil
marker through the blocking enqueue path, and wait for the drain loop to
acknowledge (modelled by running the drain). -/
def sinkFlushL (s : LSink) : LSink :=
  if s.done = true then s
  else drainRunL {s with queue := s.queue ++ [none], flushers := s.flushers + 1}

/-!
## Coordinator model (the Writer of nbtee.go)

The coordinator model tracks the pool of all sink workers ever created
(registered or already removed and still draining) and the accumulated
byte content of each target.  Targets are identified by Nat and, as in
the tests of the repository (bytes.Buffer targets), never fail, so the
target error machinery of LSink is not needed here; an Entry carries the
sink fields the coordinator claims are about.  Commands are processed one
at a time, as the single run goroutine does; drain acts let any sink
worker take one iteration of its drain loop at any point between
commands.
-/

structure Entry where
  target : Nat
  cap : Nat
  registered : Bool
  queue : List (Option (List Nat))
  closed : Bool
  done : Bool
  flushers : Nat
deriving DecidableEq, Repr

structure WState where
  bufsPerSink : Nat
  pool : List Entry
  contents : List (Nat × List Nat)
deriving DecidableEq, Repr

/-- A fresh Writer after NewWriter(n).Start(): no sinks, no content. -/
def mkInit (n : Nat) : WState := ⟨n, [], []⟩

/-- Append bytes delivered by one target Write call to the content of
target t (first matching key; a new key is created on first delivery). -/
def appendContent (t : Nat) (bs : List Nat) :
    List (Nat × List Nat) → List (Nat × List Nat)
  | [] => [(t, bs)]
  | (u, cs) :: r =>
    if u = t then (u, cs ++ bs) :: r else (u, cs) :: appendContent t bs r

/-- One target Write call per delivered buffer, in order. -/
def appendBufs (t : Nat) (bufs : List (List Nat)) (c : List (Nat × List Nat)) :
    List (Nat × List Nat) :=
  bufs.foldl (fun c b => appendContent t b c) c

/-- Accumulated content of target t (empty if the target was never
written to). -/
def contentAt (t : Nat) : List (Nat × List Nat) → List Nat
  | [] => []
  | (u, cs) :: r => if u = t then cs else contentAt t r

/-- Model of sink.Write as invoked by the coordinator's write fan-out,
for never-failing targets; same queue logic as sinkWriteL. -/
def sinkWriteW (buf : List Nat) (e : Entry) : Entry :=
  if e.done = true then e
  else if 1 < e.cap ∧ e.queue.length + 1 = e.cap then
    {e with queue := e.queue ++ [none]}
  else if e.queue.length < e.cap then
    {e with queue := e.queue ++ [some buf]}
  else e

/-- One iteration of a sink worker's drain loop (never-failing target):
on an empty closed queue the worker exits and the done signal closes; on
a nil item everything immediately available is discarded and pending
flushers are acknowledged; on a data item the buffer is written to the
target (the returned payload). -/
def drainE (e : Entry) : Entry × Option (List Nat) :=
  match e.queue with
  | [] => (if e.closed = true ∧ e.done = false then {e with done := true} else e, none)
  | none :: _ => ({e with queue := [], flushers := 0}, none)
  | some d :: rest => ({e with queue := rest}, some d)

/-- The buffers the drain loop delivers to the target between the point a
flush acknowledgement channel is registered and the first nil marker that
acknowledges it: every data item before the first nil; everything from
the first nil on is discarded by the gap handling. -/
def deliveredBeforeGap : List (Option (List Nat)) → List (List Nat)
  | [] => []
  | none :: _ => []
  | some d :: r => d :: deliveredBeforeGap r

/-- Model of sink.Flush as invoked by the coordinator on cmdFlush, run
atomically to the acknowledgement: a terminal sink acknowledges at once;
otherwise a flusher is registered, a nil marker is enqueued through the
blocking path (ordered after everything already queued), and the drain
loop runs until it acknowledges, which happens at the first nil and
leaves the queue empty.  Returns the new entry and the buffers delivered
to the target. -/
def flushRunE (e : Entry) : Entry × List (List Nat) :=
  if e.done = true then (e, [])
  else ({e with queue := [], flushers := 0}, deliveredBeforeGap e.queue)

/-- cmdFlush processing: flush every currently registered sink in pool
order, threading the target contents. -/
def flushPool : List Entry → List (Nat × List Nat) →
    List Entry × List (Nat × List Nat)
  | [], c => ([], c)
  | e :: es, c =>
    if e.registered = true then
      let r := flushRunE e
      let rest := flushPool es (appendBufs e.target r.2 c)
      (r.1 :: rest.1, rest.2)
    else
      let rest := flushPool es c
      (e :: rest.1, rest.2)

/-- cmdRemove processing over the registry: find the first registered
sink for the target, unregister it and close its queue; return the new
pool and the removed sink as the handle.  none models the ErrNotFound
result. -/
def removeAux (t : Nat) : List Entry → Option (List Entry × Entry)
  | [] => none
  | e :: es =>
    if e.registered = true ∧ e.target = t then
      some ({e with registered := false, closed := true} :: es, e)
    else
      (removeAux t es).map (fun pr => (e :: pr.1, pr.2))

/-- Writer.Add: a new sink (fresh queue with capacity BufsPerSink, fresh
worker) is constructed and handed to the run loop; if a registered sink
for the same target already exists, the new sink's queue is closed before
it receives anything and the registry is untouched, else the new sink is
registered. -/
def stepAdd (t : Nat) (s : WState) : WState :=
  if s.pool.any (fun e => e.registered && e.target == t) then s
  else {s with pool := s.pool ++ [⟨t, s.bufsPerSink, true, [], false, false, 0⟩]}

/-- Writer.Remove: returns the removed sink as handle, or none for
ErrNotFound; does not wait for the drain. -/
def stepRemove (t : Nat) (s : WState) : WState × Option Entry :=
  match removeAux t s.pool with
  | none => (s, none)
  | some (p, r) => ({s with pool := p}, some r)

/-- cmdWrite processing: offer the buffer to the non-blocking write entry
point of every currently registered sink. -/
def stepWrite (buf : List Nat) (s : WState) : WState :=
  {s with pool := s.pool.map (fun e => if e.registered = true then sinkWriteW buf e else e)}

/-- cmdFlush processing at the Writer level. -/
def stepFlush (s : WState) : WState :=
  let r := flushPool s.pool s.contents
  {s with pool := r.1, contents := r.2}

/-- Writer.Close: the run loop exits and closes the queue of every sink
still in the registry; it does not wait for the drains. -/
def stepClose (s : WState) : WState :=
  let f := fun e =>
    if e.registered = true then {e with registered := false, closed := true} else e
  {s with pool := s.pool.map f}

/-- Content update by an optional delivered payload: a drain iteration
that delivers a buffer appends it to the target content, any other
iteration leaves the contents alone. -/
def contentUpd (t : Nat) (o : Option (List Nat)) (c : List (Nat × List Nat)) :
    List (Nat × List Nat) :=
  match o with
  | none => c
  | some d => appendContent t d c

/-- One drain-loop iteration of the sink worker at pool index i (no-op if
i is out of range, or if that queue is empty and open, in which case the
worker is blocked on receive). -/
def stepDrain (i : Nat) (s : WState) : WState :=
  if h : i < s.pool.length then
    {s with pool := s.pool.set i (drainE s.pool[i]).1,
            contents := contentUpd (s.pool[i]).target (drainE s.pool[i]).2 s.contents}
  else s

/-- An act of an execution trace: an API command handed to the run loop,
or one scheduled iteration of the drain worker of the sink at a pool
index. -/
inductive Act where
  | add : Nat → Act
  | remove : Nat → Act
  | write : List Nat → Act
  | flush : Act
  | close : Act
  | drain : Nat → Act
deriving DecidableEq, Repr

def Act.isDrain : Act → Bool
  | .drain _ => true
  | _ => false

def stepAct (s : WState) : Act → WState
  | .add t => stepAdd t s
  | .remove t => (stepRemove t s).1
  | .write b => stepWrite b s
  | .flush => stepFlush s
  | .close => stepClose s
  | .drain i => stepDrain i s

/-- Run a trace of acts from a state. -/
def run (s : WState) : List Act → WState
  | [] => s
  | a :: tr => run (stepAct s a) tr

/-- The API commands of a trace, with the scheduler's drain acts erased. -/
def apiOf (tr : List Act) : List Act :=
  tr.filter (fun a => !a.isDrain)

/-!
## The Add/Write/Flush/Remove scenario (TestAddRemove)

The call sequence Add(B); Write([1,2,3]); Flush(); Remove(B);
Write([4,5,6]); Flush(); Add(B); Write([7,8,9]); Flush(); Close() is
analysed over all schedules of the sink workers: after each API command
the reachable states form a small explicit set (a phase), each phase is
closed under drain acts, and each command maps one phase into the next.
-/

def scenario : List Act :=
  [.add 0, .write [1, 2, 3], .flush, .remove 0, .write [4, 5, 6], .flush,
   .add 0, .write [7, 8, 9], .flush, .close]

/-- The sink registered for target 0 with capacity 4 and queue q. -/
def eReg (q : List (Option (List Nat))) : Entry := ⟨0, 4, true, q, false, false, 0⟩

/-- The sink for target 0 after removal or shutdown: unregistered, queue
closed and empty, worker exited iff d. -/
def eRm (d : Bool) : Entry := ⟨0, 4, false, [], true, d, 0⟩

def c3l : List (Nat × List Nat) := [(0, [1, 2, 3])]

def c9l : List (Nat × List Nat) := [(0, [1, 2, 3, 7, 8, 9])]

/-- States reachable just before the k-th command of the scenario is
processed (k = 10 and beyond: after Close). -/
def phaseStates : Nat → List WState
  | 0 => [⟨4, [], []⟩]
  | 1 => [⟨4, [eReg []], []⟩]
  | 2 => [⟨4, [eReg [some [1, 2, 3]]], []⟩, ⟨4, [eReg []], c3l⟩]
  | 3 => [⟨4, [eReg []], c3l⟩]
  | 4 => [⟨4, [eRm false], c3l⟩, ⟨4, [eRm true], c3l⟩]
  | 5 => [⟨4, [eRm false], c3l⟩, ⟨4, [eRm true], c3l⟩]
  | 6 => [⟨4, [eRm false], c3l⟩, ⟨4, [eRm true], c3l⟩]
  | 7 => [⟨4, [eRm false, eReg []], c3l⟩, ⟨4, [eRm true, eReg []], c3l⟩]
  | 8 => [⟨4, [eRm false, eReg [some [7, 8, 9]]], c3l⟩,
          ⟨4, [eRm true, eReg [some [7, 8, 9]]], c3l⟩,
          ⟨4, [eRm false, eReg []], c9l⟩, ⟨4, [eRm true, eReg []], c9l⟩]
  | 9 => [⟨4, [eRm false, eReg []], c9l⟩, ⟨4, [eRm true, eReg []], c9l⟩]
  | _ + 10 => [⟨4, [eRm false, eRm false], c9l⟩, ⟨4, [eRm false, eRm true], c9l⟩,
               ⟨4, [eRm true, eRm false], c9l⟩, ⟨4, [eRm true, eRm true], c9l⟩]

theorem stepDrain_oob {i : Nat} {s : WState} (h : s.pool.length ≤ i) :
    stepDrain i s = s := by
  unfold stepDrain
  rw [dif_neg]
  omega

theorem stepDrain_big (n : Nat) (s : WState) (h : s.pool.length ≤ 2) :
    stepDrain (n + 2) s = s :=
  stepDrain_oob (le_trans h (Nat.le_add_left 2 n))

/-- Every phase of the scenario is closed under scheduling any sink
worker for one drain iteration. -/
theorem phaseStates_drain (k i : Nat) (s : WState) (hs : s ∈ phaseStates k) :
    stepDrain i s ∈ phaseStates k := by
  have hstep : ∀ K : Nat, K ≤ 10 → ∀ x ∈ phaseStates K, ∀ j, stepDrain j x ∈ phaseStates K := by
    intro K hK x hx j
    interval_cases K <;> fin_cases hx <;> rcases j with _ | _ | n <;>
      first
        | decide
        | (rw [stepDrain_big n _ (by decide)]; decide)
  rcases Nat.lt_or_ge k 10 with h | h
  · exact hstep k (le_of_lt h) s hs i
  · obtain ⟨m, rfl⟩ := Nat.exists_eq_add_of_le' h
    have he : phaseStates (m + 10) = phaseStates 10 := rfl
    rw [he] at hs ⊢
    exact hstep 10 le_rfl s hs i

theorem phaseStep0 : ∀ s ∈ phaseStates 0, stepAdd 0 s ∈ phaseStates 1 := by
  intro s hs
  fin_cases hs
  all_goals decide

theorem phaseStep1 : ∀ s ∈ phaseStates 1, stepWrite [1, 2, 3] s ∈ phaseStates 2 := by
  intro s hs
  fin_cases hs
  all_goals decide

theorem phaseStep2 : ∀ s ∈ phaseStates 2, stepFlush s ∈ phaseStates 3 := by
  intro s hs
  fin_cases hs
  all_goals decide

theorem phaseStep3 : ∀ s ∈ phaseStates 3, (stepRemove 0 s).1 ∈ phaseStates 4 := by
  intro s hs
  fin_cases hs
  all_goals decide

theorem phaseStep4 : ∀ s ∈ phaseStates 4, stepWrite [4, 5, 6] s ∈ phaseStates 5 := by
  intro s hs
  fin_cases hs
  all_goals decide

theorem phaseStep5 : ∀ s ∈ phaseStates 5, stepFlush s ∈ phaseStates 6 := by
  intro s hs
  fin_cases hs
  all_goals decide

theorem phaseStep6 : ∀ s ∈ phaseStates 6, stepAdd 0 s ∈ phaseStates 7 := by
  intro s hs
  fin_cases hs
  all_goals decide

theorem phaseStep7 : ∀ s ∈ phaseStates 7, stepWrite [7, 8, 9] s ∈ phaseStates 8 := by
  intro s hs
  fin_cases hs
  all_goals decide

theorem phaseStep8 : ∀ s ∈ phaseStates 8, stepFlush s ∈ phaseStates 9 := by
  intro s hs
  fin_cases hs
  all_goals decide

theorem phaseStep9 : ∀ s ∈ phaseStates 9, stepClose s ∈ phaseStates 10 := by
  intro s hs
  fin_cases hs
  all_goals decide

/-- Any trace whose API projection is the tail of the scenario from phase
k, run from any state of phase k under any drain schedule, ends in phase
10. -/
theorem scenarioRun : ∀ (tr : List Act) (k : Nat) (s : WState),
    s ∈ phaseStates k → apiOf tr = scenario.drop k → run s tr ∈ phaseStates 10 := by
  intro tr
  induction tr with
  | nil =>
    intro k s hs hapi
    have hnil : scenario.drop k = [] := hapi.symm
    rcases k with _ | _ | _ | _ | _ | _ | _ | _ | _ | _ | k
    all_goals first
      | exact absurd hnil (by decide)
      | exact hs
  | cons a tr ih =>
    intro k s hs hapi
    show run (stepAct s a) tr ∈ phaseStates 10
    cases hd : a.isDrain
    case true =>
      obtain ⟨j, rfl⟩ : ∃ j, a = Act.drain j := by
        cases a <;> simp [Act.isDrain] at hd ⊢
      have hapi2 : apiOf tr = scenario.drop k := by
        simpa [apiOf, Act.isDrain] using hapi
      exact ih k _ (phaseStates_drain k j s hs) hapi2
    case false =>
      have hcons : a :: apiOf tr = scenario.drop k := by
        simpa [apiOf, hd] using hapi
      rcases k with _ | _ | _ | _ | _ | _ | _ | _ | _ | _ | k
      case succ =>
        have hdrop : scenario.drop (k + 10) = [] := by
          have hl : scenario.length = 10 := rfl
          exact List.drop_eq_nil_of_le (by omega)
        rw [hdrop] at hcons
        exact absurd hcons (List.cons_ne_nil _ _)
      all_goals obtain ⟨rfl, h2⟩ := List.cons_eq_cons.mp hcons
      · exact ih 1 _ (phaseStep0 s hs) h2
      · exact ih 2 _ (phaseStep1 s hs) h2
      · exact ih 3 _ (phaseStep2 s hs) h2
      · exact ih 4 _ (phaseStep3 s hs) h2
      · exact ih 5 _ (phaseStep4 s hs) h2
      · exact ih 6 _ (phaseStep5 s hs) h2
      · exact ih 7 _ (phaseStep6 s hs) h2
      · exact ih 8 _ (phaseStep7 s hs) h2
      · exact ih 9 _ (phaseStep8 s hs) h2
      · exact ih 10 _ (phaseStep9 s hs) h2

/-- C1: for every execution trace whose API command sequence is Add(B);
Write([1,2,3]); Flush(); Remove(B); Write([4,5,6]); Flush(); Add(B);
Write([7,8,9]); Flush(); Close() (with the sink workers scheduled
arbitrarily in between), the accumulated content written to target B is
exactly [1,2,3,7,8,9]: every write issued while B is registered and
flushed is delivered in order, and the write issued after Remove(B) is
never delivered to B. -/
theorem addRemoveDelivery (tr : List Act) (h : apiOf tr = scenario) :
    contentAt 0 (run (mkInit 4) tr).contents = [1, 2, 3, 7, 8, 9] := by
  have hall : ∀ x ∈ phaseStates 10, contentAt 0 x.contents = [1, 2, 3, 7, 8, 9] := by
    decide
  exact hall _ (scenarioRun tr 0 (mkInit 4) (by decide) h)

/-- C1 witness: a concrete trace of the scenario with drain-loop
iterations interleaved after each write delivers exactly [1,2,3,7,8,9]
to target B. -/
theorem addRemoveDelivery_spot :
    apiOf [Act.add 0, Act.drain 0, Act.write [1, 2, 3], Act.drain 0, Act.flush,
           Act.remove 0, Act.drain 0, Act.write [4, 5, 6], Act.flush, Act.add 0,
           Act.write [7, 8, 9], Act.drain 1, Act.flush, Act.close, Act.drain 1] = scenario ∧
    contentAt 0 (run (mkInit 4)
      [Act.add 0, Act.drain 0, Act.write [1, 2, 3], Act.drain 0, Act.flush,
       Act.remove 0, Act.drain 0, Act.write [4, 5, 6], Act.flush, Act.add 0,
       Act.write [7, 8, 9], Act.drain 1, Act.flush, Act.close, Act.drain 1]).contents =
      [1, 2, 3, 7, 8, 9] :=
  ⟨by decide, addRemoveDelivery _ (by decide)⟩

/-!
## Sink-local lemmas
-/

theorem sinkCloseL_queue (s : LSink) : (sinkCloseL s).1.queue = s.queue := by
  unfold sinkCloseL
  split <;> rfl

theorem drainAux_queue : ∀ (l : List (Option (List Nat))) (s : LSink),
    (drainAux l s).queue = s.queue := by
  intro l
  induction l with
  | nil =>
    intro s
    rw [drainAux]
    split <;> rfl
  | cons h t ih =>
    intro s
    cases h with
    | none =>
      rw [drainAux, drainAux]
      split <;> rfl
    | some d =>
      rw [drainAux]
      rcases hs : s.script with _ | ⟨r, sc⟩
      · simp only [hs]
        exact ih _
      · rcases r with _ | e
        · simp only [hs]
          exact ih _
        · simp only [hs]
          exact sinkCloseL_queue _

/-- The drain loop always leaves the queue empty: everything queued is
either written to the target or discarded, never left to accumulate. -/
theorem drainRunL_queue (s : LSink) : (drainRunL s).queue = [] := by
  unfold drainRunL
  rw [drainAux_queue]

/-- C5: once a sink is terminal (done signal closed), its write entry
point returns count 0 and the latched error and enqueues nothing, its
flush entry point returns at once, its close operation does not touch the
queue, and the drain loop drains every queue to empty (items are
consumed or discarded, never accumulated). -/
theorem terminalSinkFrozen :
    (∀ (s : LSink) (buf : List Nat), s.done = true →
      sinkWriteL buf s = (s, 0, s.err) ∧ sinkFlushL s = s) ∧
    (∀ s : LSink, (sinkCloseL s).1.queue = s.queue) ∧
    (∀ s : LSink, (drainRunL s).queue = []) := by
  refine ⟨fun s buf hd => ⟨?_, ?_⟩, sinkCloseL_queue, drainRunL_queue⟩
  · unfold sinkWriteL
    rw [if_pos hd]
  · unfold sinkFlushL
    rw [if_pos hd]

/-- C5 witness: a concrete terminal sink with latched error 7 rejects a
write with count 0 and error 7 and stays unchanged, and a concrete drain
run of a loaded sink leaves an empty queue. -/
theorem terminalSinkFrozen_spot :
    sinkWriteL [5] ⟨[], true, true, 0, some 7, [], [], false, false, none, 0, 4⟩ =
      (⟨[], true, true, 0, some 7, [], [], false, false, none, 0, 4⟩, 0, some 7) ∧
    (drainRunL ⟨[some [1], none, some [2]], false, false, 1, none, [], [], false, false,
        none, 0, 4⟩).queue = [] :=
  ⟨(terminalSinkFrozen.1 _ [5] rfl).1, terminalSinkFrozen.2.2 _⟩

/-- C3 counterexample: the claim says that for every non-terminal sink
whose queue length is one short of capacity the write entry point
enqueues a gap marker and drops the data.  At capacity 1 with an empty
queue (length + 1 = capacity) the code instead enqueues the data itself:
the cap(s.c) > 1 guard in sink.Write excludes capacity 1. -/
theorem gapMarkerClaimFailsAtCapOne :
    (sinkWriteL [7] ⟨[], false, false, 0, none, [], [], false, false, none, 0, 1⟩).1.queue =
      [some [7]] ∧
    ¬ (sinkWriteL [7] ⟨[], false, false, 0, none, [], [], false, false, none, 0, 1⟩).1.queue =
      [none] := by
  decide

/-- C3 amended: for every non-terminal sink with capacity strictly
greater than 1, whenever the queue is within one slot of full capacity
(length + 1 = capacity) the non-blocking write entry point enqueues a nil
gap marker instead of the incoming data; the incoming buffer is dropped
(only its length is reported back). -/
theorem gapMarkerNearCapacity (s : LSink) (buf : List Nat) (hd : s.done = false)
    (hc : 1 < s.cap) (hq : s.queue.length + 1 = s.cap) :
    sinkWriteL buf s = ({s with queue := s.queue ++ [none]}, buf.length, none) := by
  unfold sinkWriteL
  rw [if_neg (by simp [hd]), if_pos ⟨hc, hq⟩]

/-- C3 amended witness: a non-terminal sink with capacity 3 and two
queued buffers receives a gap marker from a write of [9] and drops the
data. -/
theorem gapMarkerNearCapacity_spot :
    sinkWriteL [9] ⟨[some [1], some [2]], false, false, 0, none, [], [], false, false,
        none, 0, 3⟩ =
      (⟨[some [1], some [2], none], false, false, 0, none, [], [], false, false, none, 0, 3⟩,
       1, none) := by
  rw [gapMarkerNearCapacity _ [9] rfl (by decide) (by decide)]
  rfl

theorem sinkCloseL_written (s : LSink) : (sinkCloseL s).1.written = s.written := by
  unfold sinkCloseL
  split <;> rfl

theorem sinkCloseL_script (s : LSink) : (sinkCloseL s).1.script = s.script := by
  unfold sinkCloseL
  split <;> rfl

theorem sinkCloseL_done (s : LSink) : (sinkCloseL s).1.done = s.done := by
  unfold sinkCloseL
  split <;> rfl

theorem sinkCloseL_err_some (s : LSink) (e : Nat) (h : s.err = some e) :
    (sinkCloseL s).1.err = some e := by
  unfold sinkCloseL
  split
  · simp [h]
  · exact h

/-- How far the drain loop gets before stopping: the buffers it passes to
the target are always a sublist of the data payloads of the queue it
consumed. -/
theorem drainAux_written : ∀ (l : List (Option (List Nat))) (s : LSink),
    ∃ w, (drainAux l s).written = s.written ++ w ∧ List.Sublist w (dataOf l) := by
  intro l
  induction l with
  | nil =>
    intro s
    refine ⟨[], ?_, by simp⟩
    rw [drainAux]
    split <;> simp
  | cons h t ih =>
    intro s
    cases h with
    | none =>
      refine ⟨[], ?_, by simp⟩
      rw [drainAux, drainAux]
      split <;> simp
    | some d =>
      rw [drainAux]
      rcases hs : s.script with _ | ⟨r, sc⟩
      · simp only [hs]
        obtain ⟨w, hw, hsub⟩ :=
          ih {s with written := s.written ++ [d], err := none, script := []}
        refine ⟨d :: w, ?_, by simpa using hsub.cons₂ d⟩
        simpa [List.append_assoc] using hw
      · rcases r with _ | e
        · simp only [hs]
          obtain ⟨w, hw, hsub⟩ :=
            ih {s with written := s.written ++ [d], err := none, script := sc}
          refine ⟨d :: w, ?_, by simpa using hsub.cons₂ d⟩
          simpa [List.append_assoc] using hw
        · refine ⟨[d], ?_, (List.nil_sublist (dataOf t)).cons₂ d⟩
          simp only [hs]
          rw [sinkCloseL_written]

/-- C10: the nil gap or flush marker is never passed to the target's
Write method.  The written field of LSink records exactly the buffers
passed to the target Write call by the drain loop; after a full drain run
the new calls form a sublist of the data payloads of the queue, so every
argument of a target Write call is one of the non-nil buffers the
producer submitted, and the control values are consumed internally. -/
theorem drainDeliversOnlyData (s : LSink) :
    ∃ w, (drainRunL s).written = s.written ++ w ∧ List.Sublist w (dataOf s.queue) := by
  unfold drainRunL
  exact drainAux_written s.queue {s with queue := []}

/-- First error of a script prefix. -/
def firstErr : List (Option Nat) → Option Nat
  | [] => none
  | none :: l => firstErr l
  | some e :: _ => some e

theorem drainAux_latch : ∀ (l : List (Option (List Nat))) (s : LSink), s.err = none →
    ∃ k, (drainAux l s).script = s.script.drop k ∧
      (drainAux l s).err = firstErr (s.script.take k) ∧
      (∀ r ∈ (s.script.take k).dropLast, r = none) ∧
      ((drainAux l s).err ≠ none → (drainAux l s).done = true) := by
  intro l
  induction l with
  | nil =>
    intro s he
    refine ⟨0, ?_, ?_, by simp, ?_⟩ <;> rw [drainAux]
    · split <;> rfl
    · split <;> exact he
    · intro hne
      exfalso
      apply hne
      split <;> exact he
  | cons h t ih =>
    intro s he
    cases h with
    | none =>
      refine ⟨0, ?_, ?_, by simp, ?_⟩ <;> rw [drainAux, drainAux]
      · split <;> rfl
      · split <;> exact he
      · intro hne
        exfalso
        apply hne
        split <;> exact he
    | some d =>
      rw [drainAux]
      rcases hs : s.script with _ | ⟨r, sc⟩
      · simp only [hs]
        obtain ⟨k, h1, h2, h3, h4⟩ :=
          ih {s with written := s.written ++ [d], err := none, script := []} rfl
        refine ⟨0, ?_, ?_, by simp, h4⟩
        · rw [h1]
          simp
        · rw [h2]
          simp [firstErr]
      · rcases r with _ | e
        · simp only [hs]
          obtain ⟨k, h1, h2, h3, h4⟩ :=
            ih {s with written := s.written ++ [d], err := none, script := sc} rfl
          refine ⟨k + 1, ?_, ?_, ?_, h4⟩
          · rw [h1]
            simp
          · rw [h2]
            simp [firstErr]
          · simp only [List.take_succ_cons]
            rcases hq : sc.take k with _ | ⟨a, b⟩
            · simp
            · rw [List.dropLast_cons₂]
              intro r hr
              rcases List.mem_cons.mp hr with hr | hr
              · exact hr
              · exact h3 r (by rw [hq]; exact hr)
        · simp only [hs]
          refine ⟨1, ?_, ?_, ?_, ?_⟩
          · rw [sinkCloseL_script]
            simp
          · rw [sinkCloseL_err_some _ e rfl]
            simp [firstErr]
          · simp [firstErr]
          · intro _
            rw [sinkCloseL_done]

/-- C9: the latched error of a sink is set at most once, by the single
write failure (if any) that caused termination, and the close path of the
sink handle prefers it.  Part 1: if a write error is latched, sink.Close
returns it, in preference to any error of closing the target.  Part 2:
a second Close call never closes the target again and returns the same
latched error.  Part 3: over a full drain run starting with no latched
error, the consumed script prefix contains no failure except possibly
its last entry, the latched error is exactly that first (hence only)
failure or stays none, and a latch implies the terminal state. -/
theorem errorLatchedOnce :
    (∀ (s : LSink) (e : Nat), s.err = some e → (sinkCloseL s).2 = some e) ∧
    (∀ s : LSink,
      (sinkCloseL (sinkCloseL s).1).1.closeCount = (sinkCloseL s).1.closeCount ∧
      (sinkCloseL (sinkCloseL s).1).2 = (sinkCloseL s).2 ∧
      (sinkCloseL s).1.closeCount ≤ s.closeCount + 1) ∧
    (∀ s : LSink, s.err = none →
      ∃ k, (drainRunL s).script = s.script.drop k ∧
        (drainRunL s).err = firstErr (s.script.take k) ∧
        (∀ r ∈ (s.script.take k).dropLast, r = none) ∧
        ((drainRunL s).err ≠ none → (drainRunL s).done = true)) := by
  refine ⟨?_, ?_, ?_⟩
  · intro s e h
    unfold sinkCloseL
    split
    · simp [h]
    · exact h
  · intro s
    unfold sinkCloseL
    split
    · simp
    · simp
  · intro s he
    unfold drainRunL
    exact drainAux_latch s.queue {s with queue := []} he

/-- C9 witness: a sink with latched write error 3 whose target close
would return 9 reports 3 from Close; and a drain over queue
[[1]succeeding, [2]failing with 5] latches exactly the single failure 5,
leaves script fully consumed, and is terminal. -/
theorem errorLatchedOnce_spot :
    (sinkCloseL ⟨[], true, true, 0, some 3, [], [], true, false, some 9, 0, 4⟩).2 = some 3 ∧
    (∃ k, (drainRunL ⟨[some [1], some [2]], false, false, 0, none, [], [none, some 5],
          true, false, none, 0, 4⟩).script = ([none, some 5] : List (Option Nat)).drop k ∧
      (drainRunL ⟨[some [1], some [2]], false, false, 0, none, [], [none, some 5],
          true, false, none, 0, 4⟩).err =
        firstErr (([none, some 5] : List (Option Nat)).take k) ∧
      (∀ r ∈ (([none, some 5] : List (Option Nat)).take k).dropLast, r = none) ∧
      ((drainRunL ⟨[some [1], some [2]], false, false, 0, none, [], [none, some 5],
          true, false, none, 0, 4⟩).err ≠ none →
        (drainRunL ⟨[some [1], some [2]], false, false, 0, none, [], [none, some 5],
          true, false, none, 0, 4⟩).done = true)) :=
  ⟨errorLatchedOnce.1 _ 3 rfl, errorLatchedOnce.2.2 _ rfl⟩

/-!
## Writer.Write copy semantics (nbtee.go)

To express that Writer.Write forwards an independent copy of the caller's
buffer, slices are modelled explicitly: a heap of byte buffers addressed
by index, where mutating one address never changes another.
-/

structure GoHeap where
  bufs : List (List Nat)
deriving DecidableEq, Repr

/-- Model of Writer.Write from nbtee.go: read the caller's buffer at
address addr, allocate a fresh slice at the next address, copy the bytes
into it, forward the fresh address as the cmdWrite command, and return
(len(buf), nil) unconditionally, before and independently of any sink
accepting the data.  Result: (new heap, forwarded address, reported
count, reported error). -/
def writerWrite (h : GoHeap) (addr : Nat) : GoHeap × Nat × Nat × Option Nat :=
  let buf := h.bufs.getD addr []
  (⟨h.bufs ++ [buf]⟩, h.bufs.length, buf.length, none)

/-- The caller overwrites the slice at address a with bytes b. -/
def mutateHeap (h : GoHeap) (a : Nat) (b : List Nat) : GoHeap :=
  ⟨h.bufs.set a b⟩

/-- C8: for every heap and every allocated caller buffer, Writer.Write
returns exactly the full buffer length and no error (regardless of any
sink), and forwards a fresh address distinct from the caller's address
holding an equal, independent copy, so mutating the caller's buffer after
the call never affects the forwarded data. -/
theorem writeCopiesBuffer (h : GoHeap) (addr : Nat) (ha : addr < h.bufs.length) :
    (writerWrite h addr).2.2.1 = (h.bufs.getD addr []).length ∧
    (writerWrite h addr).2.2.2 = none ∧
    (writerWrite h addr).2.1 ≠ addr ∧
    (writerWrite h addr).1.bufs.getD (writerWrite h addr).2.1 [] = h.bufs.getD addr [] ∧
    ∀ nb, (mutateHeap (writerWrite h addr).1 addr nb).bufs.getD (writerWrite h addr).2.1 [] =
      h.bufs.getD addr [] := by
  refine ⟨rfl, rfl, ?_, ?_, ?_⟩
  · show h.bufs.length ≠ addr
    omega
  · show (h.bufs ++ [h.bufs.getD addr []]).getD h.bufs.length [] = h.bufs.getD addr []
    rw [List.getD_eq_getElem?_getD, List.getElem?_concat_length]
    rfl
  · intro nb
    show ((h.bufs ++ [h.bufs.getD addr []]).set addr nb).getD h.bufs.length [] =
      h.bufs.getD addr []
    rw [List.getD_eq_getElem?_getD, List.getElem?_set_ne (by omega),
        List.getElem?_concat_length]
    rfl

/-- C8 witness: on a heap holding buffers [1,2] and [3], writing the
buffer at address 0 reports (2, nil), forwards address 2 with a copy of
[1,2], and overwriting address 0 with [9,9,9] leaves the forwarded copy
equal to [1,2]. -/
theorem writeCopiesBuffer_spot :
    (writerWrite ⟨[[1, 2], [3]]⟩ 0).2.2.1 = 2 ∧
    (writerWrite ⟨[[1, 2], [3]]⟩ 0).2.2.2 = none ∧
    (mutateHeap (writerWrite ⟨[[1, 2], [3]]⟩ 0).1 0 [9, 9, 9]).bufs.getD
      (writerWrite ⟨[[1, 2], [3]]⟩ 0).2.1 [] = [1, 2] :=
  ⟨(writeCopiesBuffer ⟨[[1, 2], [3]]⟩ 0 (by decide)).1,
   (writeCopiesBuffer ⟨[[1, 2], [3]]⟩ 0 (by decide)).2.1,
   (writeCopiesBuffer ⟨[[1, 2], [3]]⟩ 0 (by decide)).2.2.2.2 [9, 9, 9]⟩

/-!
## Remove: lookup characterization (cmdRemove in Writer.run)
-/

theorem removeAux_none (t : Nat) :
    ∀ l : List Entry, removeAux t l = none ↔
      ∀ e ∈ l, ¬(e.registered = true ∧ e.target = t) := by
  intro l
  induction l with
  | nil => simp [removeAux]
  | cons e es ih =>
    rw [removeAux]
    by_cases h : e.registered = true ∧ e.target = t
    · rw [if_pos h]
      constructor
      · intro hco
        simp at hco
      · intro hall
        exact absurd h (hall e (List.mem_cons_self e es))
    · rw [if_neg h, Option.map_eq_none', ih]
      constructor
      · intro hall x hx
        rcases List.mem_cons.mp hx with rfl | hx
        · exact h
        · exact hall x hx
      · intro hall x hx
        exact hall x (List.mem_cons_of_mem e hx)

theorem removeAux_some (t : Nat) :
    ∀ (l p : List Entry) (r : Entry), removeAux t l = some (p, r) →
      r.registered = true ∧ r.target = t ∧
      ∃ k, l[k]? = some r ∧
        p = l.set k {r with registered := false, closed := true} ∧
        ∀ j, j < k → ∀ x, l[j]? = some x → ¬(x.registered = true ∧ x.target = t) := by
  intro l
  induction l with
  | nil =>
    intro p r h
    simp [removeAux] at h
  | cons e es ih =>
    intro p r h
    rw [removeAux] at h
    by_cases hc : e.registered = true ∧ e.target = t
    · rw [if_pos hc, Option.some_inj, Prod.mk.injEq] at h
      obtain ⟨hp, hr⟩ := h
      subst hr
      refine ⟨hc.1, hc.2, 0, by simp, ?_, ?_⟩
      · rw [← hp]
        rfl
      · intro j hj
        exact absurd hj (Nat.not_lt_zero j)
    · rw [if_neg hc, Option.map_eq_some'] at h
      obtain ⟨⟨p', r'⟩, hrec, heq⟩ := h
      rw [Prod.mk.injEq] at heq
      obtain ⟨hp, hr⟩ := heq
      subst hr
      obtain ⟨h1, h2, k, hk1, hk2, hk3⟩ := ih p' r' hrec
      refine ⟨h1, h2, k + 1, by simpa using hk1, ?_, ?_⟩
      · rw [← hp, hk2]
        rfl
      · intro j hj x hx
        rcases j with _ | j
        · simp only [List.getElem?_cons_zero, Option.some_inj] at hx
          subst hx
          exact hc
        · rw [List.getElem?_cons_succ] at hx
          exact hk3 j (by omega) x hx

/-- C7: Writer.Remove returns the NotFound error (modelled as handle
none) if and only if no sink for the target is currently registered;
when the target is registered, Remove returns the sink as a non-nil
handle with a nil error, unregisters it (the first registered entry for
the target is replaced by its unregistered copy with a closed queue) and
leaves everything else untouched, without delivering or discarding any
queued data (contents unchanged, no drain performed). -/
theorem removeReports (t : Nat) (s : WState) :
    ((stepRemove t s).2 = none ↔ ∀ e ∈ s.pool, ¬(e.registered = true ∧ e.target = t)) ∧
    (∀ r, (stepRemove t s).2 = some r →
      r.registered = true ∧ r.target = t ∧
      (stepRemove t s).1.contents = s.contents ∧
      ∃ k, s.pool[k]? = some r ∧
        (stepRemove t s).1.pool = s.pool.set k {r with registered := false, closed := true} ∧
        ∀ j, j < k → ∀ x, s.pool[j]? = some x →
          ¬(x.registered = true ∧ x.target = t)) := by
  constructor
  · unfold stepRemove
    rcases hrec : removeAux t s.pool with _ | ⟨p, r⟩
    · simpa using (removeAux_none t s.pool).mp hrec
    · simp only []
      constructor
      · intro hco
        simp at hco
      · intro hall
        have hn := (removeAux_none t s.pool).mpr hall
        rw [hn] at hrec
        cases hrec
  · intro r hr
    unfold stepRemove at hr ⊢
    split at hr
    · simp at hr
    next p r' heq =>
      simp only [Option.some_inj] at hr
      subst hr
      obtain ⟨h1, h2, k, hk1, hk2, hk3⟩ := removeAux_some t s.pool p r' heq
      exact ⟨h1, h2, rfl, k, hk1, by simpa using hk2, hk3⟩

/-- C7 witness: on a Writer with one registered sink for target 0 and a
queued buffer, Remove(0) returns the sink with no error, unregisters it
and closes its queue; a second Remove(0) then reports NotFound, as does
Remove(1) for a never-added target. -/
theorem removeReports_spot :
    ((stepRemove 0 ⟨4, [⟨0, 4, true, [some [1]], false, false, 0⟩], []⟩).2 =
      some ⟨0, 4, true, [some [1]], false, false, 0⟩) ∧
    ((stepRemove 0 ⟨4, [⟨0, 4, false, [some [1]], true, false, 0⟩], []⟩).2 = none) ∧
    ((stepRemove 1 ⟨4, [⟨0, 4, true, [some [1]], false, false, 0⟩], []⟩).2 = none) ∧
    (stepRemove 0 ⟨4, [⟨0, 4, true, [some [1]], false, false, 0⟩], []⟩).1.pool =
      [⟨0, 4, false, [some [1]], true, false, 0⟩] :=
  ⟨by decide, by decide,
   (removeReports 1 ⟨4, [⟨0, 4, true, [some [1]], false, false, 0⟩], []⟩).1.mpr (by decide),
   by decide⟩

/-!
## Add idempotence (cmdAdd in Writer.run)
-/

/-- C6: adding a target that is already registered is benign idempotence:
the registry and every sink (queue, buffered data, worker state) are left
exactly as they were and no error is raised; a single subsequent Remove
removes the one registration and returns the original sink, after which
another Remove reports NotFound — the target behaves exactly as if added
once.  The newly constructed sink is discarded by closing its fresh empty
queue before it processes anything: its drain loop exits immediately with
nothing ever written to the target (last conjunct, over the sink-local
model with an arbitrary target script). -/
theorem addIdempotent (s : WState) (t i : Nat) (e : Entry)
    (hi : s.pool[i]? = some e) (hr : e.registered = true) (ht : e.target = t)
    (hu : ∀ j x, j ≠ i → s.pool[j]? = some x → ¬(x.registered = true ∧ x.target = t)) :
    stepAdd t s = s ∧
    stepRemove t (stepAdd t s) = stepRemove t s ∧
    (stepRemove t s).2 = some e ∧
    (stepRemove t ((stepRemove t s).1)).2 = none ∧
    (∀ (sc : List (Option Nat)) (hc wn : Bool) (ce : Option Nat) (cc c : Nat),
      (drainRunL ⟨[], true, false, 0, none, [], sc, hc, wn, ce, cc, c⟩).written = [] ∧
      (drainRunL ⟨[], true, false, 0, none, [], sc, hc, wn, ce, cc, c⟩).done = true) := by
  have hmem : e ∈ s.pool := List.mem_iff_getElem?.mpr ⟨i, hi⟩
  obtain ⟨hlt, -⟩ := List.getElem?_eq_some_iff.mp hi
  have hadd : stepAdd t s = s := by
    unfold stepAdd
    rw [if_pos]
    rw [List.any_eq_true]
    exact ⟨e, hmem, by simp [hr, ht]⟩
  have hne : removeAux t s.pool ≠ none := fun h =>
    (removeAux_none t s.pool).mp h e hmem ⟨hr, ht⟩
  rcases hrec : removeAux t s.pool with _ | ⟨p, r⟩
  · exact absurd hrec hne
  obtain ⟨hr1, hr2, k, hk1, hk2, hk3⟩ := removeAux_some t s.pool p r hrec
  have hki : k = i := by
    by_contra hki
    exact hu k r hki hk1 ⟨hr1, hr2⟩
  subst hki
  have hre : r = e := Option.some_inj.mp (hk1.symm.trans hi)
  subst hre
  have hfst : (stepRemove t s).1 = {s with pool := p} := by
    unfold stepRemove
    rw [hrec]
  have hpn : removeAux t p = none := by
    rw [removeAux_none]
    intro x hx hmatch
    obtain ⟨j, hj⟩ := List.mem_iff_getElem?.mp hx
    rw [hk2] at hj
    rcases eq_or_ne j k with rfl | hji
    · rw [List.getElem?_set_self hlt] at hj
      have hxv : x.registered = false := by
        cases Option.some_inj.mp hj
        rfl
      rw [hxv] at hmatch
      exact absurd hmatch.1 (by simp)
    · rw [List.getElem?_set_ne (by omega)] at hj
      exact hu j x hji hj hmatch
  refine ⟨hadd, by rw [hadd], ?_, ?_, ?_⟩
  · unfold stepRemove
    rw [hrec]
  · rw [hfst]
    unfold stepRemove
    rw [hpn]
  · intro sc hc wn ce cc c
    constructor <;> simp [drainRunL, drainAux]

/-- C6 witness: on a Writer with one registered sink for target 0, a
second Add(0) is the identity, and after the single Remove(0) another
Remove(0) reports NotFound; the discarded fresh sink never writes. -/
theorem addIdempotent_spot :
    stepAdd 0 ⟨4, [⟨0, 4, true, [], false, false, 0⟩], []⟩ =
      ⟨4, [⟨0, 4, true, [], false, false, 0⟩], []⟩ ∧
    (stepRemove 0 ((stepRemove 0 (stepAdd 0
      ⟨4, [⟨0, 4, true, [], false, false, 0⟩], []⟩)).1)).2 = none ∧
    (drainRunL ⟨[], true, false, 0, none, [], [some 3], true, false, none, 0, 4⟩).written =
      [] :=
  have h := addIdempotent ⟨4, [⟨0, 4, true, [], false, false, 0⟩], []⟩ 0 0
    ⟨0, 4, true, [], false, false, 0⟩ rfl rfl rfl
    (by
      intro j x hj hx
      rcases j with _ | j
      · exact absurd rfl hj
      · simp at hx)
  ⟨h.1, by rw [h.2.1]; exact h.2.2.2.1, (h.2.2.2.2 [some 3] true false none 0 4).1⟩

/-!
## Flush drains every registered queue (cmdFlush in Writer.run)

The invariant GInv — a terminal sink worker has an empty queue — holds
initially and is preserved by every act, so after any command trace
ending in cmdFlush every registered sink queue is empty.
-/

def GInv (s : WState) : Prop := ∀ e ∈ s.pool, e.done = true → e.queue = []

theorem sinkWriteW_of_done (buf : List Nat) (e : Entry) (h : e.done = true) :
    sinkWriteW buf e = e := by
  unfold sinkWriteW
  rw [if_pos h]

theorem sinkWriteW_fields (buf : List Nat) (e : Entry) :
    (sinkWriteW buf e).done = e.done ∧ (sinkWriteW buf e).target = e.target ∧
    (sinkWriteW buf e).registered = e.registered ∧ (sinkWriteW buf e).closed = e.closed := by
  unfold sinkWriteW
  repeat' split
  all_goals exact ⟨rfl, rfl, rfl, rfl⟩

theorem flushRunE_fields (e : Entry) :
    (flushRunE e).1.done = e.done ∧ (flushRunE e).1.target = e.target ∧
    (flushRunE e).1.registered = e.registered ∧ (flushRunE e).1.cap = e.cap := by
  unfold flushRunE
  split <;> exact ⟨rfl, rfl, rfl, rfl⟩

theorem flushRunE_of_done (e : Entry) (h : e.done = true) : flushRunE e = (e, []) := by
  unfold flushRunE
  rw [if_pos h]

theorem flushRunE_queue (e : Entry) (h : ¬ e.done = true) : (flushRunE e).1.queue = [] := by
  unfold flushRunE
  rw [if_neg h]

theorem flushPool_fst : ∀ (l : List Entry) (c : List (Nat × List Nat)),
    (flushPool l c).1 =
      l.map (fun e => if e.registered = true then (flushRunE e).1 else e) := by
  intro l
  induction l with
  | nil =>
    intro c
    rfl
  | cons e es ih =>
    intro c
    by_cases h : e.registered = true
    · simp [flushPool, h, ih]
    · simp [flushPool, h, ih]

theorem removeAux_mem_fields (t : Nat) : ∀ (l p : List Entry) (r : Entry),
    removeAux t l = some (p, r) →
    ∀ x ∈ p, ∃ y ∈ l, x.queue = y.queue ∧ x.done = y.done := by
  intro l
  induction l with
  | nil =>
    intro p r h
    simp [removeAux] at h
  | cons e es ih =>
    intro p r h x hx
    rw [removeAux] at h
    by_cases hc : e.registered = true ∧ e.target = t
    · rw [if_pos hc, Option.some_inj, Prod.mk.injEq] at h
      rw [← h.1] at hx
      rcases List.mem_cons.mp hx with rfl | hx
      · exact ⟨e, List.mem_cons_self e es, rfl, rfl⟩
      · exact ⟨x, List.mem_cons_of_mem e hx, rfl, rfl⟩
    · rw [if_neg hc, Option.map_eq_some'] at h
      obtain ⟨⟨p', r'⟩, hrec, heq⟩ := h
      rw [Prod.mk.injEq] at heq
      rw [← heq.1] at hx
      rcases List.mem_cons.mp hx with rfl | hx
      · exact ⟨x, List.mem_cons_self x es, rfl, rfl⟩
      · obtain ⟨y, hy, h1, h2⟩ := ih p' r' hrec x hx
        exact ⟨y, List.mem_cons_of_mem e hy, h1, h2⟩

theorem drainE_nil (e : Entry) (h : e.queue = []) :
    drainE e = (if e.closed = true ∧ e.done = false then {e with done := true} else e, none) := by
  unfold drainE
  rw [h]

theorem drainE_cons_none (e : Entry) (rest : List (Option (List Nat)))
    (h : e.queue = none :: rest) :
    drainE e = ({e with queue := [], flushers := 0}, none) := by
  unfold drainE
  rw [h]

theorem drainE_cons_some (e : Entry) (d : List Nat) (rest : List (Option (List Nat)))
    (h : e.queue = some d :: rest) :
    drainE e = ({e with queue := rest}, some d) := by
  unfold drainE
  rw [h]

theorem ginv_stepAct (s : WState) (a : Act) (h : GInv s) : GInv (stepAct s a) := by
  cases a with
  | add t =>
    intro x hx hd
    have hx : x ∈ (stepAdd t s).pool := hx
    unfold stepAdd at hx
    split at hx
    · exact h x hx hd
    · rcases List.mem_append.mp hx with hx | hx
      · exact h x hx hd
      · simp only [List.mem_singleton] at hx
        subst hx
        cases hd
  | remove t =>
    intro x hx hd
    have hx : x ∈ ((stepRemove t s).1).pool := hx
    unfold stepRemove at hx
    split at hx
    · exact h x hx hd
    next p r heq =>
      obtain ⟨y, hy, hq, hdn⟩ := removeAux_mem_fields t s.pool p r heq x hx
      rw [hq]
      exact h y hy (hdn ▸ hd)
  | write buf =>
    intro x hx hd
    have hx : x ∈ s.pool.map
      (fun e => if e.registered = true then sinkWriteW buf e else e) := hx
    simp only [List.mem_map] at hx
    obtain ⟨y, hy, rfl⟩ := hx
    by_cases hr : y.registered = true
    · rw [if_pos hr] at hd ⊢
      have hyd : y.done = true := (sinkWriteW_fields buf y).1 ▸ hd
      rw [sinkWriteW_of_done buf y hyd]
      exact h y hy hyd
    · rw [if_neg hr] at hd ⊢
      exact h y hy hd
  | flush =>
    intro x hx hd
    have hx' : x ∈ (flushPool s.pool s.contents).1 := hx
    rw [flushPool_fst] at hx'
    simp only [List.mem_map] at hx'
    obtain ⟨y, hy, rfl⟩ := hx'
    by_cases hr : y.registered = true
    · rw [if_pos hr] at hd ⊢
      by_cases hyd : y.done = true
      · rw [flushRunE_of_done y hyd]
        exact h y hy hyd
      · exact flushRunE_queue y hyd
    · rw [if_neg hr] at hd ⊢
      exact h y hy hd
  | close =>
    intro x hx hd
    have hx : x ∈ s.pool.map (fun e =>
      if e.registered = true then {e with registered := false, closed := true} else e) := hx
    simp only [List.mem_map] at hx
    obtain ⟨y, hy, rfl⟩ := hx
    by_cases hr : y.registered = true
    · rw [if_pos hr] at hd ⊢
      exact h y hy hd
    · rw [if_neg hr] at hd ⊢
      exact h y hy hd
  | drain i =>
    intro x hx hd
    have hx : x ∈ (stepDrain i s).pool := hx
    unfold stepDrain at hx
    split at hx
    case isTrue hlt =>
      rcases List.mem_or_eq_of_mem_set hx with hx' | rfl
      · exact h x hx' hd
      · have hmem : s.pool[i] ∈ s.pool := s.pool.getElem_mem hlt
        rcases hq : (s.pool[i]).queue with _ | ⟨o, rest⟩
        · rw [drainE_nil _ hq] at hd ⊢
          split <;> exact hq
        · rcases o with _ | d
          · rw [drainE_cons_none _ rest hq]
          · rw [drainE_cons_some _ d rest hq] at hd
            have hde : (s.pool[i]).done = true := hd
            have hqe := h _ hmem hde
            rw [hq] at hqe
            exact absurd hqe (by simp)
    case isFalse =>
      exact h x hx hd

theorem ginv_run : ∀ (tr : List Act) (s : WState), GInv s → GInv (run s tr) := by
  intro tr
  induction tr with
  | nil =>
    intro s h
    exact h
  | cons a tr ih =>
    intro s h
    exact ih _ (ginv_stepAct s a h)

theorem run_append (s : WState) (tr tr' : List Act) :
    run s (tr ++ tr') = run (run s tr) tr' := by
  induction tr generalizing s with
  | nil => rfl
  | cons a tr ih => exact ih (stepAct s a)

theorem stepFlush_registered_empty (s : WState) (h : GInv s) :
    ∀ x ∈ (stepFlush s).pool, x.registered = true → x.queue = [] := by
  intro x hx hr
  have hx' : x ∈ (flushPool s.pool s.contents).1 := hx
  rw [flushPool_fst] at hx'
  simp only [List.mem_map] at hx'
  obtain ⟨y, hy, rfl⟩ := hx'
  by_cases hyr : y.registered = true
  · rw [if_pos hyr]
    by_cases hyd : y.done = true
    · rw [flushRunE_of_done y hyd]
      exact h y hy hyd
    · exact flushRunE_queue y hyd
  · rw [if_neg hyr] at hr
    exact absurd hr hyr

/-- C2: after processing any command sequence ending in a Flush (from a
fresh Writer, under any drain-worker schedule), no data from prior Writes
remains pending in any registered sink queue: the flush handshake with
each registered sink — a flusher registration followed by a nil marker
through the blocking enqueue path, acknowledged by the drain loop only
once everything queued before the marker has been consumed or discarded
— leaves every registered queue empty. -/
theorem flushLeavesNoPending (n : Nat) (tr : List Act) :
    ∀ x ∈ (run (mkInit n) (tr ++ [Act.flush])).pool, x.registered = true →
      dataOf x.queue = [] := by
  rw [run_append]
  intro x hx hr
  have hg : GInv (run (mkInit n) tr) := ginv_run tr (mkInit n) (by intro e he; cases he)
  have hq : x.queue = [] := stepFlush_registered_empty _ hg x hx hr
  rw [hq]
  rfl

/-- C2 witness: after Add(0); Write([1,2]); Write([3]); Flush() the one
registered sink has an empty queue. -/
theorem flushLeavesNoPending_spot :
    (⟨0, 4, true, [], false, false, 0⟩ : Entry) ∈
      (run (mkInit 4) ([Act.add 0, Act.write [1, 2], Act.write [3]] ++ [Act.flush])).pool ∧
    dataOf (⟨0, 4, true, [], false, false, 0⟩ : Entry).queue = [] :=
  ⟨by decide,
   flushLeavesNoPending 4 [Act.add 0, Act.write [1, 2], Act.write [3]] _ (by decide) rfl⟩

/-!
## Remove before Write: the removed target never receives the write

The invariant remInv tracks one unregistered sink (at a fixed pool index)
for a target t: no other pool entry serves t, and the content of t can
only grow by buffers drawn, in order, from the queue the sink held — so a
write fanned out after the removal can never reach t.
-/

theorem contentAt_appendContent_self (t : Nat) (bs : List Nat) :
    ∀ c, contentAt t (appendContent t bs c) = contentAt t c ++ bs := by
  intro c
  induction c with
  | nil => simp [appendContent, contentAt]
  | cons p r ih =>
    rcases p with ⟨v, cs⟩
    rw [appendContent]
    by_cases hv : v = t
    · rw [if_pos hv]
      simp only [contentAt]
      rw [if_pos hv, if_pos hv]
    · rw [if_neg hv]
      simp only [contentAt]
      rw [if_neg hv, if_neg hv, ih]

theorem contentAt_appendContent_ne (t u : Nat) (bs : List Nat) (hu : u ≠ t) :
    ∀ c, contentAt t (appendContent u bs c) = contentAt t c := by
  intro c
  induction c with
  | nil => simp [appendContent, contentAt, hu]
  | cons p r ih =>
    rcases p with ⟨v, cs⟩
    rw [appendContent]
    by_cases hv : v = u
    · rw [if_pos hv]
      have hvt : ¬ v = t := by
        rw [hv]
        exact hu
      simp only [contentAt]
      rw [if_neg hvt, if_neg hvt]
    · rw [if_neg hv]
      simp only [contentAt]
      by_cases hvt : v = t
      · rw [if_pos hvt, if_pos hvt]
      · rw [if_neg hvt, if_neg hvt, ih]

theorem contentAt_appendBufs_ne (t u : Nat) (hu : u ≠ t) :
    ∀ (bufs : List (List Nat)) (c), contentAt t (appendBufs u bufs c) = contentAt t c := by
  intro bufs
  induction bufs with
  | nil =>
    intro c
    rfl
  | cons b bs ih =>
    intro c
    rw [show appendBufs u (b :: bs) c = appendBufs u bs (appendContent u b c) from rfl]
    rw [ih, contentAt_appendContent_ne t u b hu]

theorem flushPool_contents_ne (t : Nat) : ∀ (l : List Entry) (c : List (Nat × List Nat)),
    (∀ x ∈ l, x.registered = true → x.target ≠ t) →
    contentAt t (flushPool l c).2 = contentAt t c := by
  intro l
  induction l with
  | nil =>
    intro c _
    rfl
  | cons e es ih =>
    intro c h
    by_cases hr : e.registered = true
    · have het : e.target ≠ t := h e (List.mem_cons_self e es) hr
      simp only [flushPool, if_pos hr]
      rw [ih _ (fun x hx => h x (List.mem_cons_of_mem e hx))]
      exact contentAt_appendBufs_ne t e.target het _ c
    · simp only [flushPool, if_neg hr]
      exact ih _ (fun x hx => h x (List.mem_cons_of_mem e hx))

theorem drainE_target (e : Entry) : ((drainE e).1).target = e.target := by
  unfold drainE
  split
  · split <;> rfl
  · rfl
  · rfl

/-- remInv t i c0 q0 s: the pool entry at index i is an unregistered sink
for target t holding some suffix of the work it was removed with, no
other entry serves t, and the content of t so far is c0 extended by
delivered buffers w, with w followed by the still-queued data a sublist
of q0 (the data queued at removal time). -/
def remInv (t i : Nat) (c0 : List Nat) (q0 : List (List Nat)) (s : WState) : Prop :=
  (∀ j x, j ≠ i → s.pool[j]? = some x → x.target ≠ t) ∧
  ∃ e, s.pool[i]? = some e ∧ e.target = t ∧ e.registered = false ∧
    ∃ w, contentAt t s.contents = c0 ++ w.flatten ∧
      List.Sublist (w ++ dataOf e.queue) q0

theorem remInv_step (t i : Nat) (c0 : List Nat) (q0 : List (List Nat)) (s : WState)
    (a : Act) (ha : a ≠ Act.add t) (h : remInv t i c0 q0 s) :
    remInv t i c0 q0 (stepAct s a) := by
  obtain ⟨hoth, e, hi, htg, hreg, w, hw, hsub⟩ := h
  obtain ⟨hlt, -⟩ := List.getElem?_eq_some_iff.mp hi
  cases a with
  | add u =>
    have hut : u ≠ t := fun huv => ha (by rw [huv])
    show remInv t i c0 q0 (stepAdd u s)
    unfold stepAdd
    split
    · exact ⟨hoth, e, hi, htg, hreg, w, hw, hsub⟩
    · refine ⟨?_, e, ?_, htg, hreg, w, hw, hsub⟩
      · intro j x hj hx
        have hx : (s.pool ++ [⟨u, s.bufsPerSink, true, [], false, false, 0⟩])[j]? = some x := hx
        rcases Nat.lt_or_ge j s.pool.length with hjl | hjl
        · rw [List.getElem?_append_left hjl] at hx
          exact hoth j x hj hx
        · rw [List.getElem?_append_right hjl] at hx
          rcases hje : j - s.pool.length with _ | m
          · rw [hje] at hx
            simp only [List.getElem?_cons_zero, Option.some_inj] at hx
            rw [← hx]
            exact hut
          · rw [hje] at hx
            simp at hx
      · show (s.pool ++ [⟨u, s.bufsPerSink, true, [], false, false, 0⟩])[i]? = some e
        rw [List.getElem?_append_left hlt]
        exact hi
  | remove u =>
    show remInv t i c0 q0 ((stepRemove u s).1)
    unfold stepRemove
    rcases hrec : removeAux u s.pool with _ | ⟨p, r⟩
    · exact ⟨hoth, e, hi, htg, hreg, w, hw, hsub⟩
    · obtain ⟨hr1, hr2, k, hk1, hk2, hk3⟩ := removeAux_some u s.pool p r hrec
      have hki : k ≠ i := by
        intro hk
        subst hk
        have hrr : r = e := Option.some_inj.mp (hk1.symm.trans hi)
        rw [hrr, hreg] at hr1
        exact absurd hr1 (by simp)
      obtain ⟨hklt, -⟩ := List.getElem?_eq_some_iff.mp hk1
      refine ⟨?_, e, ?_, htg, hreg, w, hw, hsub⟩
      · intro j x hj hx
        have hx : p[j]? = some x := hx
        rw [hk2] at hx
        rcases eq_or_ne j k with rfl | hjk
        · rw [List.getElem?_set_self hklt] at hx
          have hx' := Option.some_inj.mp hx
          rw [← hx']
          intro hvt
          exact hoth j r hki hk1 hvt
        · rw [List.getElem?_set_ne (by omega)] at hx
          exact hoth j x hj hx
      · show p[i]? = some e
        rw [hk2, List.getElem?_set_ne (by omega)]
        exact hi
  | write buf =>
    refine ⟨?_, e, ?_, htg, hreg, w, hw, hsub⟩
    · intro j x hj hx
      have hx : (s.pool.map
        (fun y => if y.registered = true then sinkWriteW buf y else y))[j]? = some x := hx
      rw [List.getElem?_map, Option.map_eq_some'] at hx
      obtain ⟨y, hjy, hfy⟩ := hx
      rw [← hfy]
      have hft : (if y.registered = true then sinkWriteW buf y else y).target = y.target := by
        by_cases hyr : y.registered = true
        · rw [if_pos hyr]
          exact (sinkWriteW_fields buf y).2.1
        · rw [if_neg hyr]
      rw [hft]
      exact hoth j y hj hjy
    · show (s.pool.map
        (fun y => if y.registered = true then sinkWriteW buf y else y))[i]? = some e
      rw [List.getElem?_map, hi]
      simp [hreg]
  | flush =>
    have hregs : ∀ x ∈ s.pool, x.registered = true → x.target ≠ t := by
      intro x hx hxr
      obtain ⟨j, hj⟩ := List.mem_iff_getElem?.mp hx
      rcases eq_or_ne j i with rfl | hji
      · have hx' : x = e := Option.some_inj.mp (hj.symm.trans hi)
        rw [hx', hreg] at hxr
        exact absurd hxr (by simp)
      · exact hoth j x hji hj
    refine ⟨?_, e, ?_, htg, hreg, w, ?_, hsub⟩
    · intro j x hj hx
      have hx : (flushPool s.pool s.contents).1[j]? = some x := hx
      rw [flushPool_fst, List.getElem?_map, Option.map_eq_some'] at hx
      obtain ⟨y, hjy, hfy⟩ := hx
      rw [← hfy]
      have hft : (if y.registered = true then (flushRunE y).1 else y).target = y.target := by
        by_cases hyr : y.registered = true
        · rw [if_pos hyr]
          exact (flushRunE_fields y).2.1
        · rw [if_neg hyr]
      rw [hft]
      exact hoth j y hj hjy
    · show (flushPool s.pool s.contents).1[i]? = some e
      rw [flushPool_fst, List.getElem?_map, hi]
      simp [hreg]
    · show contentAt t (flushPool s.pool s.contents).2 = c0 ++ w.flatten
      rw [flushPool_contents_ne t s.pool s.contents hregs]
      exact hw
  | close =>
    refine ⟨?_, e, ?_, htg, hreg, w, hw, hsub⟩
    · intro j x hj hx
      have hx : (s.pool.map (fun y =>
        if y.registered = true then {y with registered := false, closed := true}
        else y))[j]? = some x := hx
      rw [List.getElem?_map, Option.map_eq_some'] at hx
      obtain ⟨y, hjy, hfy⟩ := hx
      rw [← hfy]
      have hft : (if y.registered = true then
          ({y with registered := false, closed := true} : Entry) else y).target = y.target := by
        by_cases hyr : y.registered = true
        · rw [if_pos hyr]
        · rw [if_neg hyr]
      rw [hft]
      exact hoth j y hj hjy
    · show (s.pool.map (fun y =>
        if y.registered = true then {y with registered := false, closed := true}
        else y))[i]? = some e
      rw [List.getElem?_map, hi]
      simp [hreg]
  | drain j =>
    show remInv t i c0 q0 (stepDrain j s)
    unfold stepDrain
    split
    case isTrue hjlt =>
      rcases eq_or_ne j i with rfl | hji
      · have hie : s.pool[j] = e := (List.getElem?_eq_some_iff.mp hi).2
        rw [hie]
        rcases hq : e.queue with _ | ⟨o, rest⟩
        · rw [drainE_nil _ hq]
          refine ⟨?_, if e.closed = true ∧ e.done = false then {e with done := true} else e,
            ?_, ?_, ?_, w, hw, ?_⟩
          · intro j' x hj' hx
            have hx : (s.pool.set j
              (if e.closed = true ∧ e.done = false then {e with done := true} else e))[j']? =
                some x := hx
            rw [List.getElem?_set_ne (by omega)] at hx
            exact hoth j' x hj' hx
          · show (s.pool.set j _)[j]? = some _
            rw [List.getElem?_set_self hjlt]
          · show (if e.closed = true ∧ e.done = false then
              ({e with done := true} : Entry) else e).target = t
            split <;> exact htg
          · show (if e.closed = true ∧ e.done = false then
              ({e with done := true} : Entry) else e).registered = false
            split <;> exact hreg
          · show List.Sublist (w ++ dataOf (if e.closed = true ∧ e.done = false then
              ({e with done := true} : Entry) else e).queue) q0
            split <;> exact hsub
        · rcases o with _ | d
          · rw [drainE_cons_none _ rest hq]
            refine ⟨?_, {e with queue := [], flushers := 0}, ?_, htg, hreg, w, hw, ?_⟩
            · intro j' x hj' hx
              have hx : (s.pool.set j
                ({e with queue := [], flushers := 0}))[j']? = some x := hx
              rw [List.getElem?_set_ne (by omega)] at hx
              exact hoth j' x hj' hx
            · show (s.pool.set j _)[j]? = some _
              rw [List.getElem?_set_self hjlt]
            · show List.Sublist (w ++ dataOf []) q0
              have hsub' := hsub
              rw [hq] at hsub'
              simpa using (List.sublist_append_left w (dataOf rest)).trans hsub'
          · rw [drainE_cons_some _ d rest hq]
            refine ⟨?_, {e with queue := rest}, ?_, htg, hreg, w ++ [d], ?_, ?_⟩
            · intro j' x hj' hx
              have hx : (s.pool.set j ({e with queue := rest}))[j']? = some x := hx
              rw [List.getElem?_set_ne (by omega)] at hx
              exact hoth j' x hj' hx
            · show (s.pool.set j _)[j]? = some _
              rw [List.getElem?_set_self hjlt]
            · show contentAt t (contentUpd e.target (some d) s.contents) = _
              rw [show contentUpd e.target (some d) s.contents =
                appendContent e.target d s.contents from rfl]
              rw [htg, contentAt_appendContent_self, hw]
              simp
            · show List.Sublist ((w ++ [d]) ++ dataOf rest) q0
              have hsub' := hsub
              rw [hq] at hsub'
              simpa [List.append_assoc] using hsub'
      · have hjy : s.pool[j]? = some (s.pool[j]) := List.getElem?_eq_getElem hjlt
        have hyt : (s.pool[j]).target ≠ t := hoth j _ hji hjy
        refine ⟨?_, e, ?_, htg, hreg, w, ?_, hsub⟩
        · intro j' x hj' hx
          have hx : (s.pool.set j ((drainE s.pool[j]).1))[j']? = some x := hx
          rcases eq_or_ne j' j with rfl | hjj
          · rw [List.getElem?_set_self hjlt] at hx
            have hx' := Option.some_inj.mp hx
            rw [← hx', drainE_target]
            exact hyt
          · rw [List.getElem?_set_ne (by omega)] at hx
            exact hoth j' x hj' hx
        · show (s.pool.set j _)[i]? = some e
          rw [List.getElem?_set_ne (by omega)]
          exact hi
        · show contentAt t
            (contentUpd (s.pool[j]).target (drainE s.pool[j]).2 s.contents) = c0 ++ w.flatten
          rcases hd2 : (drainE s.pool[j]).2 with _ | d
          · exact hw
          · rw [show contentUpd (s.pool[j]).target (some d) s.contents =
              appendContent (s.pool[j]).target d s.contents from rfl]
            rw [contentAt_appendContent_ne t _ d hyt]
            exact hw
    case isFalse =>
      exact ⟨hoth, e, hi, htg, hreg, w, hw, hsub⟩

theorem remInv_run (t i : Nat) (c0 : List Nat) (q0 : List (List Nat)) :
    ∀ tr : List Act, (∀ a ∈ tr, a ≠ Act.add t) →
      ∀ s, remInv t i c0 q0 s → remInv t i c0 q0 (run s tr) := by
  intro tr
  induction tr with
  | nil =>
    intro _ s h
    exact h
  | cons a tr ih =>
    intro hna s h
    exact ih (fun x hx => hna x (List.mem_cons_of_mem a hx)) _
      (remInv_step t i c0 q0 s a (hna a (List.mem_cons_self a tr)) h)

/-- C4: a Write processed after Remove(t) is never delivered to the
removed target, even if the removed sink has not finished draining, and
over any further trace that does not re-add t (with the sink workers
scheduled arbitrarily): the content of t only ever grows by a sublist of
the data that was already queued at removal time — independent of the
written buffer.  In particular the write fan-out reaches only targets
registered at the moment the write command is dequeued, because the
removal has already taken t out of the registry. -/
theorem removedNeverReceives (s : WState) (t i : Nat) (e : Entry) (buf : List Nat)
    (tr : List Act) (hi : s.pool[i]? = some e) (hr : e.registered = true)
    (ht : e.target = t)
    (hoth : ∀ j x, j ≠ i → s.pool[j]? = some x → x.target ≠ t)
    (hna : ∀ a ∈ tr, a ≠ Act.add t) :
    ∃ w, contentAt t (run (stepWrite buf (stepRemove t s).1) tr).contents =
        contentAt t s.contents ++ w.flatten ∧
      List.Sublist w (dataOf e.queue) := by
  have hmem : e ∈ s.pool := List.mem_iff_getElem?.mpr ⟨i, hi⟩
  obtain ⟨hlt, -⟩ := List.getElem?_eq_some_iff.mp hi
  have hne : removeAux t s.pool ≠ none := fun h =>
    (removeAux_none t s.pool).mp h e hmem ⟨hr, ht⟩
  rcases hrec : removeAux t s.pool with _ | ⟨p, r⟩
  · exact absurd hrec hne
  obtain ⟨hr1, hr2, k, hk1, hk2, hk3⟩ := removeAux_some t s.pool p r hrec
  have hki : k = i := by
    by_contra hkk
    exact hoth k r hkk hk1 hr2
  subst hki
  have hre : r = e := Option.some_inj.mp (hk1.symm.trans hi)
  subst hre
  have hrm : (stepRemove t s).1 = {s with pool := p} := by
    unfold stepRemove
    rw [hrec]
  have hinv1 : remInv t k (contentAt t s.contents) (dataOf r.queue) {s with pool := p} := by
    refine ⟨?_, {r with registered := false, closed := true}, ?_, ht, rfl, [], by simp, ?_⟩
    · intro j x hj hx
      have hx : p[j]? = some x := hx
      rw [hk2] at hx
      rcases eq_or_ne j k with rfl | hjk
      · rw [List.getElem?_set_self hlt] at hx
        have hx' := Option.some_inj.mp hx
        rw [← hx']
        intro hvt
        exact absurd hvt (by rw [← ht] at hvt ⊢; exact fun _ => hj rfl)
      · rw [List.getElem?_set_ne (by omega)] at hx
        exact hoth j x hj hx
    · show p[k]? = some _
      rw [hk2, List.getElem?_set_self hlt]
    · show List.Sublist ([] ++ dataOf r.queue) (dataOf r.queue)
      simp
  have hinv2 := remInv_step t k _ _ _ (Act.write buf) (by simp) hinv1
  have hinv3 := remInv_run t k _ _ tr hna _ hinv2
  obtain ⟨-, e', -, -, -, w, hw, hsub⟩ := hinv3
  refine ⟨w, ?_, (List.sublist_append_left w _).trans hsub⟩
  rw [hrm]
  exact hw

/-- C4 witness: a sink for target 5 holding queued buffer [1] is removed,
then [9,9] is written and two drain iterations run; the content of
target 5 extends only by a sublist of [[1]] — the post-removal write
contributes nothing. -/
theorem removedNeverReceives_spot :
    ∃ w, contentAt 5 (run (stepWrite [9, 9]
        (stepRemove 5 ⟨4, [⟨5, 4, true, [some [1]], false, false, 0⟩], []⟩).1)
        [Act.drain 0, Act.drain 0]).contents =
      contentAt 5 ([] : List (Nat × List Nat)) ++ w.flatten ∧
      List.Sublist w (dataOf [some [1]]) :=
  removedNeverReceives ⟨4, [⟨5, 4, true, [some [1]], false, false, 0⟩], []⟩ 5 0
    ⟨5, 4, true, [some [1]], false, false, 0⟩ [9, 9] [Act.drain 0, Act.drain 0]
    rfl rfl rfl
    (by
      intro j x hj hx
      rcases j with _ | j
      · exact absurd rfl hj
      · simp at hx)
    (by decide)

end Nbtee
